import Mathlib

/-!
Verification of the CAR(p) state-space core of `carma_pack` (source file
`carma_pack.py`) against its natural-language specification.

Shallow embedding conventions:
* NumPy float arrays become `List ℝ`; complex vectors of fixed size `p`
  become `Fin p → ℂ`; complex `p × p` matrices become
  `Matrix (Fin p) (Fin p) ℂ`.
* Python exceptions (in this file: `IndexError` escaping from an array
  access) are modelled by `Option.none`.
* The in-place `time.sort()` performed by `carp_process` is modelled by
  returning the post-call contents of the time array alongside the result.
* The pseudo-random draws of `carp_process` are modelled by an explicit
  noise oracle argument supplying the sampled state increments.
-/

noncomputable section

open scoped Classical

/-- `carma_pack.py` lines 297-300 (and identically lines 444-447): the
Vandermonde-like matrix of eigenvectors, row `k` holding `ar_roots ** k`
(row 0 is all ones, row 1 is the roots themselves).  This matrix exists
only for `p ≥ 2`: the source assigns `EigenMat[1, :] = ar_roots`
unconditionally (line 298 resp. 445), which raises `IndexError` on the
`p × p` array when `p ≤ 1`; that error path is modelled by the callers
(`kalman_filter`, `carp_process`) returning `none` for `p ≤ 1`. -/
def EigenMat (p : ℕ) (r : Fin p → ℂ) : Matrix (Fin p) (Fin p) ℂ :=
  fun i j => r j ^ (i : ℕ)

lemma eigenMat_transpose (p : ℕ) (r : Fin p → ℂ) :
    EigenMat p r = (Matrix.vandermonde r).transpose := by
  ext i j
  rfl

lemma eigenMat_det_ne_zero (p : ℕ) (r : Fin p → ℂ)
    (h : ∀ i j : Fin p, i ≠ j → r i ≠ r j) : (EigenMat p r).det ≠ 0 := by
  rw [eigenMat_transpose, Matrix.det_transpose]
  exact Matrix.det_vandermonde_ne_zero_iff.mpr fun i j hij => by
    by_contra hne
    exact h i j hne (by rw [hij])

lemma eigenMat_det_ne_zero_of_pairwise (ar_roots : List ℂ)
    (h : ar_roots.Pairwise (· ≠ ·)) :
    (EigenMat ar_roots.length fun i => ar_roots.get i).det ≠ 0 := by
  refine eigenMat_det_ne_zero _ _ fun i j hij => ?_
  rcases lt_or_gt_of_ne hij with hlt | hgt
  · exact List.pairwise_iff_get.mp h i j hlt
  · exact (List.pairwise_iff_get.mp h j i hgt).symm

/-- Lines 303-304 (and 450-451): the input vector in the original state
space, all zeros except the last entry which is one. -/
def Rvector (p : ℕ) : Fin p → ℂ :=
  fun i => if (i : ℕ) = p - 1 then 1 else 0

/-- Line 307 (and 454): the rotated input vector, `J = inv(E) * R`
(the code solves `E·J = R`; for an invertible eigenmatrix this is the
same vector, and Mathlib's matrix inverse is the shallow model of it). -/
def Jvector (p : ℕ) (r : Fin p → ℂ) : Fin p → ℂ :=
  (EigenMat p r)⁻¹.mulVec (Rvector p)

/-- Lines 313-315 (and identically 460-462): the stationary covariance of
the rotated state vector,
`StateVar[i, j] = -sigsqr * J_i * conj(J_j) / (r_i + conj(r_j))`. -/
def StateVar (p : ℕ) (sigsqr : ℝ) (r : Fin p → ℂ) : Matrix (Fin p) (Fin p) ℂ :=
  fun i j =>
    -(sigsqr : ℂ) * Jvector p r i * (starRingEnd ℂ) (Jvector p r j) /
      (r i + (starRingEnd ℂ) (r j))

/-- Claim C8: the stationary state covariance matrix `S` built by both
`kalman_filter` (lines 313-315) and `carp_process` (lines 460-462), with
entries `S[j,k] = -sigma^2 * J_j * conj(J_k) / (r_j + conj(r_k))`, is
Hermitian: `S[j,k] = conj(S[k,j])` for all indices.  (This holds for every
root vector and every `sigsqr`, in particular for pairwise-distinct roots
with negative real parts.) -/
theorem stateVar_isHermitian (p : ℕ) (sigsqr : ℝ) (r : Fin p → ℂ) :
    (StateVar p sigsqr r).IsHermitian := by
  refine Matrix.ext fun i j => ?_
  simp only [Matrix.conjTranspose_apply, StateVar, Complex.star_def, map_div₀, map_inv₀,
    map_mul, map_neg, map_add, Complex.conj_conj, Complex.conj_ofReal]
  ring

/-- Lines 394-410: `carp_variance(sigsqr, ar_roots)`, the marginal variance
of the CAR(p) process.  The double loop accumulates, for each `k`, the
denominator `denom_product = (-2 * Re(r_k) + 0j) * prod_{l ≠ k} (r_l - r_k)
* (conj(r_l) + r_k)`, sums `1 / denom_product` over `k`, and returns
`sigsqr` times the real part of the sum. -/
def carp_variance (sigsqr : ℝ) (ar_roots : List ℂ) : ℝ :=
  sigsqr *
    ((List.range ar_roots.length).foldl
      (fun acc k =>
        acc +
          1 /
            ((List.range ar_roots.length).foldl
              (fun d l =>
                if l ≠ k then
                  d *
                    ((ar_roots.getD l 0 - ar_roots.getD k 0) *
                      ((starRingEnd ℂ) (ar_roots.getD l 0) + ar_roots.getD k 0))
                else d)
              ((-2 * (ar_roots.getD k 0).re : ℝ) : ℂ)))
      0).re

lemma foldl_add_eq_sum (f : ℕ → ℂ) : ∀ (m : ℕ) (a : ℂ),
    (List.range m).foldl (fun acc k => acc + f k) a = a + ∑ k in Finset.range m, f k := by
  intro m
  induction m with
  | zero => intro a; simp
  | succ m ih =>
    intro a
    rw [List.range_succ, List.foldl_append, ih, Finset.sum_range_succ]
    simp [add_assoc]

lemma foldl_mul_ite_eq_prod (g : ℕ → ℂ) (k : ℕ) : ∀ (m : ℕ) (a : ℂ),
    (List.range m).foldl (fun d l => if l ≠ k then d * g l else d) a =
      a * ∏ l in (Finset.range m).erase k, g l := by
  intro m
  induction m with
  | zero => intro a; simp
  | succ m ih =>
    intro a
    rw [List.range_succ, List.foldl_append, ih]
    simp only [List.foldl_cons, List.foldl_nil]
    by_cases hmk : m = k
    · subst hmk
      rw [if_neg (by simp), Finset.range_succ, Finset.erase_insert Finset.not_mem_range_self,
        Finset.erase_eq_of_not_mem Finset.not_mem_range_self]
    · rw [if_pos hmk, Finset.range_succ, Finset.erase_insert_of_ne hmk,
        Finset.prod_insert (fun hc => Finset.not_mem_range_self (Finset.mem_of_mem_erase hc))]
      ring

/-- Claim C7: for every noise variance `sigsqr` and root list,
`carp_variance(sigsqr, R)` equals `sigsqr` times the real part of
`sum_k 1 / D_k` with
`D_k = -2*Re(r_k) * prod_{l ≠ k} (r_l - r_k)*(conj(r_l) + r_k)`;
and in the particular analytic case of the single real root `r = -1` with
`sigsqr = 1` the result is exactly `1/2`. -/
theorem carp_variance_closed_form :
    (∀ (sigsqr : ℝ) (ar_roots : List ℂ),
      carp_variance sigsqr ar_roots =
        sigsqr *
          (∑ k in Finset.range ar_roots.length,
            (((-2 * (ar_roots.getD k 0).re : ℝ) : ℂ) *
              ∏ l in (Finset.range ar_roots.length).erase k,
                ((ar_roots.getD l 0 - ar_roots.getD k 0) *
                  ((starRingEnd ℂ) (ar_roots.getD l 0) + ar_roots.getD k 0)))⁻¹).re) ∧
    carp_variance 1 [(-1 : ℂ)] = 1 / 2 := by
  constructor
  · intro sigsqr ar_roots
    unfold carp_variance
    rw [foldl_add_eq_sum]
    congr 2
    rw [zero_add]
    refine Finset.sum_congr rfl fun k _ => ?_
    rw [foldl_mul_ite_eq_prod, one_div]
  · unfold carp_variance
    norm_num [show List.range 1 = [0] from rfl, List.foldl_cons, List.foldl_nil,
      ← Complex.ofReal_inv, Complex.ofReal_re]

/-- Horner evaluation of a polynomial given by its coefficient list (highest
power first), as performed by `np.polyval` at line 389 of `power_spectrum`. -/
def polyval (coefs : List ℝ) (x : ℂ) : ℂ :=
  coefs.foldl (fun (acc : ℂ) (c : ℝ) => acc * x + (c : ℂ)) 0

/-- Lines 379-391: `power_spectrum(freq, sigma, ar_coef)` evaluated at a
single frequency: `sigma ** 2 / abs(polyval(ar_coef, 2*pi*1j*freq)) ** 2`. -/
def power_spectrum (freq : ℝ) (sigma : ℝ) (ar_coef : List ℝ) : ℝ :=
  sigma ^ 2 / Complex.abs (polyval ar_coef (((2 * Real.pi : ℝ) : ℂ) * Complex.I * (freq : ℝ))) ^ 2

/-- Lines 168-175 of `plot_power_spectrum`: the explicit power-accumulation
loop building the AR polynomial value for one posterior draw:
`ar_poly = sum_{k < p-1} ar_coefs[k] * omega^(p-k)` accumulated in a loop,
then `ar_poly += ar_coefs[p-1] * omega + ar_coefs[p]`. -/
def ar_poly_loop (p : ℕ) (coefs : List ℝ) (omega : ℂ) : ℂ :=
  (List.range (p - 1)).foldl (fun acc k => acc + (coefs.getD k 0 : ℂ) * omega ^ (p - k)) 0 +
    (coefs.getD (p - 1) 0 : ℂ) * omega + (coefs.getD p 0 : ℂ)

/-- Line 176 of `plot_power_spectrum`: the per-draw PSD value
`sigmas ** 2 / np.abs(ar_poly) ** 2` with `omega = 2*pi*1j*freq`. -/
def psd_draw (p : ℕ) (sigma : ℝ) (coefs : List ℝ) (freq : ℝ) : ℝ :=
  sigma ^ 2 /
    Complex.abs (ar_poly_loop p coefs (((2 * Real.pi : ℝ) : ℂ) * Complex.I * (freq : ℝ))) ^ 2

lemma polyval_foldl_general (x : ℂ) : ∀ (l : List ℝ) (a : ℂ),
    l.foldl (fun (acc : ℂ) (c : ℝ) => acc * x + (c : ℂ)) a =
      a * x ^ l.length + l.foldl (fun (acc : ℂ) (c : ℝ) => acc * x + (c : ℂ)) 0 := by
  intro l
  induction l with
  | nil => intro a; simp
  | cons c l ih =>
    intro a
    simp only [List.foldl_cons, List.length_cons]
    rw [ih (a * x + (c : ℂ)), ih ((0 : ℂ) * x + (c : ℂ))]
    ring

lemma polyval_eq_sum (coefs : List ℝ) (x : ℂ) :
    polyval coefs x =
      ∑ k in Finset.range coefs.length, (coefs.getD k 0 : ℂ) * x ^ (coefs.length - 1 - k) := by
  induction coefs with
  | nil => simp [polyval]
  | cons c l ih =>
    show (c :: l).foldl (fun (acc : ℂ) (c : ℝ) => acc * x + (c : ℂ)) 0 = _
    simp only [List.foldl_cons]
    rw [polyval_foldl_general]
    simp only [List.length_cons]
    rw [Finset.sum_range_succ']
    simp only [List.getD_cons_succ, List.getD_cons_zero]
    rw [show l.foldl (fun (acc : ℂ) (c : ℝ) => acc * x + (c : ℂ)) 0 = polyval l x from rfl, ih]
    have hsum :
        (∑ k in Finset.range l.length,
            ((l.getD k 0 : ℝ) : ℂ) * x ^ (l.length + 1 - 1 - (k + 1))) =
          ∑ k in Finset.range l.length, ((l.getD k 0 : ℝ) : ℂ) * x ^ (l.length - 1 - k) := by
      refine Finset.sum_congr rfl fun k _ => ?_
      rw [show l.length + 1 - 1 - (k + 1) = l.length - 1 - k from by omega]
    rw [hsum, show l.length + 1 - 1 - 0 = l.length from by omega]
    ring

lemma ar_poly_loop_eq_polyval (p : ℕ) (coefs : List ℝ) (x : ℂ)
    (hlen : coefs.length = p + 1) (hp : 1 ≤ p) :
    ar_poly_loop p coefs x = polyval coefs x := by
  obtain ⟨q, rfl⟩ : ∃ q, p = q + 1 := ⟨p - 1, (Nat.sub_add_cancel hp).symm⟩
  rw [polyval_eq_sum, hlen]
  have h1 : ∀ k : ℕ, q + 1 + 1 - 1 - k = q + 1 - k := fun k => by omega
  simp only [h1]
  rw [Finset.sum_range_succ, Finset.sum_range_succ]
  unfold ar_poly_loop
  rw [show q + 1 - 1 = q from rfl]
  rw [foldl_add_eq_sum (fun k => ((coefs.getD k 0 : ℝ) : ℂ) * x ^ (q + 1 - k)), zero_add]
  rw [show q + 1 - q = 1 from by omega, show q + 1 - (q + 1) = 0 from by omega]
  rw [pow_one, pow_zero, mul_one]

/-- Claim C9: for every order `p ≥ 1` and monic coefficient list
`a_0..a_p` (`a_0 = 1`, length `p+1`), noise level `sigma` and frequency
`f`, the per-draw PSD value computed by the explicit power-accumulation
loop inside `plot_power_spectrum` equals
`power_spectrum(f, sigma, a) = sigma^2 / |polyval(a, 2*pi*1j*f)|^2`. -/
theorem psd_loop_eq_power_spectrum (p : ℕ) (coefs : List ℝ) (sigma freq : ℝ)
    (hlen : coefs.length = p + 1) (hp : 1 ≤ p) (_hmonic : coefs.getD 0 0 = 1) :
    psd_draw p sigma coefs freq = power_spectrum freq sigma coefs := by
  unfold psd_draw power_spectrum
  rw [ar_poly_loop_eq_polyval p coefs _ hlen hp]

/-- Claim C9 witness: the loop and `power_spectrum` agree at the concrete
input `p = 1`, `coefs = [1, 2]`, `sigma = 1`, `f = 0`. -/
theorem psd_loop_eq_power_spectrum_witness :
    psd_draw 1 1 [1, 2] 0 = power_spectrum 0 1 [1, 2] :=
  psd_loop_eq_power_spectrum 1 [1, 2] 1 0 (by simp) (by norm_num) (by simp)

/-- NumPy's `np.percentile(xs, q)` with the default linear interpolation:
sort the samples, take the fractional position `q/100 * (n - 1)`, and
linearly interpolate between the two neighbouring order statistics.
`np.median(xs)` coincides with the 50th percentile under this rule (for an
even count the interpolation averages the two middle elements). -/
def npPercentile (xs : List ℝ) (q : ℝ) : ℝ :=
  ((List.insertionSort (· ≤ ·) xs).getD (⌊q / 100 * ((xs.length : ℝ) - 1)⌋).toNat 0) +
    (q / 100 * ((xs.length : ℝ) - 1) - ((⌊q / 100 * ((xs.length : ℝ) - 1)⌋).toNat : ℝ)) *
      ((List.insertionSort (· ≤ ·) xs).getD ((⌊q / 100 * ((xs.length : ℝ) - 1)⌋).toNat + 1) 0 -
        (List.insertionSort (· ≤ ·) xs).getD (⌊q / 100 * ((xs.length : ℝ) - 1)⌋).toNat 0)

/-- Lines 167-176 of `plot_power_spectrum`: the vector of per-draw PSD
values at one frequency, one entry per (sigma, coefficient-row) pair of the
posterior ensemble. -/
def psd_samples_at (p : ℕ) (sigmas : List ℝ) (ar_coefs : List (List ℝ)) (freq : ℝ) : List ℝ :=
  (sigmas.zip ar_coefs).map fun sc => psd_draw p sc.1 sc.2 freq

/-- Lines 161-196 of `plot_power_spectrum`, the array-returning part: for
each frequency the code fills `psd_credint[i, 0]` with the lower
percentile `(100 - percentile)/2`, `psd_credint[i, 2]` with the upper
percentile `100 - lower`, and `psd_credint[i, 1]` with the median, and at
line 196 returns the column triple
`(psd_credint[:, 0], psd_credint[:, 2], psd_credint[:, 1])`. -/
def credible_band (p : ℕ) (freqs : List ℝ) (sigmas : List ℝ) (ar_coefs : List (List ℝ))
    (percentile : ℝ) : List ℝ × List ℝ × List ℝ :=
  ((freqs.map fun f =>
      (npPercentile (psd_samples_at p sigmas ar_coefs f) ((100 - percentile) / 2),
        npPercentile (psd_samples_at p sigmas ar_coefs f) (100 - (100 - percentile) / 2),
        npPercentile (psd_samples_at p sigmas ar_coefs f) 50)).map fun row => row.1,
    (freqs.map fun f =>
      (npPercentile (psd_samples_at p sigmas ar_coefs f) ((100 - percentile) / 2),
        npPercentile (psd_samples_at p sigmas ar_coefs f) (100 - (100 - percentile) / 2),
        npPercentile (psd_samples_at p sigmas ar_coefs f) 50)).map fun row => row.2.1,
    (freqs.map fun f =>
      (npPercentile (psd_samples_at p sigmas ar_coefs f) ((100 - percentile) / 2),
        npPercentile (psd_samples_at p sigmas ar_coefs f) (100 - (100 - percentile) / 2),
        npPercentile (psd_samples_at p sigmas ar_coefs f) 50)).map fun row => row.2.2)

/-- The lower-percentile PSD curve as the specification words it: for each
frequency, the `(100 - percentile)/2` percentile of the per-draw PSD
distribution at that frequency. -/
def lower_curve (p : ℕ) (freqs : List ℝ) (sigmas : List ℝ) (ar_coefs : List (List ℝ))
    (percentile : ℝ) : List ℝ :=
  freqs.map fun f => npPercentile (psd_samples_at p sigmas ar_coefs f) ((100 - percentile) / 2)

/-- The upper-percentile PSD curve as the specification words it. -/
def upper_curve (p : ℕ) (freqs : List ℝ) (sigmas : List ℝ) (ar_coefs : List (List ℝ))
    (percentile : ℝ) : List ℝ :=
  freqs.map fun f =>
    npPercentile (psd_samples_at p sigmas ar_coefs f) (100 - (100 - percentile) / 2)

/-- The median PSD curve as the specification words it. -/
def median_curve (p : ℕ) (freqs : List ℝ) (sigmas : List ℝ) (ar_coefs : List (List ℝ)) :
    List ℝ :=
  freqs.map fun f => npPercentile (psd_samples_at p sigmas ar_coefs f) 50

/-- Claim C5 counterexample: at the concrete ensemble of three posterior
draws `sigma = 1`, coefficient rows `[1,1], [1,2], [1,4]` (order `p = 1`),
one frequency `0` and `percentile = 100`, the second component of the
returned tuple is not the median PSD curve (it is the upper-percentile
curve: the code returns `(lower, upper, median)`, not
`(lower, median, upper)`). -/
theorem credible_band_second_not_median_cex :
    (credible_band 1 [0] [1, 1, 1] [[1, 1], [1, 2], [1, 4]] 100).2.1 ≠
      median_curve 1 [0] [1, 1, 1] [[1, 1], [1, 2], [1, 4]] := by
  have hsamples : psd_samples_at 1 [1, 1, 1] [[1, 1], [1, 2], [1, 4]] 0 = [1, 4⁻¹, 16⁻¹] := by
    unfold psd_samples_at psd_draw ar_poly_loop
    norm_num [List.zip, List.zipWith, Complex.ext_iff]
  have hsorted :
      List.insertionSort (· ≤ ·) [(1 : ℝ), 4⁻¹, 16⁻¹] = [16⁻¹, 4⁻¹, 1] := by
    norm_num [List.insertionSort, List.orderedInsert]
  have hup : npPercentile [(1 : ℝ), 4⁻¹, 16⁻¹] 100 = 1 := by
    unfold npPercentile
    rw [hsorted]
    norm_num [show Int.toNat 2 = 2 from rfl]
  have hmed : npPercentile [(1 : ℝ), 4⁻¹, 16⁻¹] 50 = 4⁻¹ := by
    unfold npPercentile
    rw [hsorted]
    norm_num [show Int.toNat 1 = 1 from rfl]
  unfold credible_band median_curve
  simp only [List.map_cons, List.map_nil, hsamples,
    show (100 : ℝ) - (100 - 100) / 2 = 100 from by norm_num, hup, hmed, ne_eq,
    List.cons.injEq, and_true]
  norm_num

/-- Claim C5 amended: for every ensemble and percentile level the triple
returned by the band computation of `plot_power_spectrum` is
`(lower-percentile curve, upper-percentile curve, median curve)` — lower,
then upper, then median, not `(lower, median, upper)`. -/
theorem credible_band_components (p : ℕ) (freqs : List ℝ) (sigmas : List ℝ)
    (ar_coefs : List (List ℝ)) (percentile : ℝ) :
    credible_band p freqs sigmas ar_coefs percentile =
      (lower_curve p freqs sigmas ar_coefs percentile,
        upper_curve p freqs sigmas ar_coefs percentile,
        median_curve p freqs sigmas ar_coefs) := by
  unfold credible_band lower_curve upper_curve median_curve
  simp [List.map_map, Function.comp]

/-- Line 145 of `plot_power_spectrum`: the integer subsampling stride
`nsamples0 / nsamples` (Python 2 integer floor division). -/
def subsample_stride (nsamples0 nsamples : ℕ) : ℕ :=
  nsamples0 / nsamples

/-- Line 145: `index = np.arange(nsamples) * (nsamples0 / nsamples)`. -/
def subsample_index (nsamples0 nsamples : ℕ) : List ℕ :=
  (List.range nsamples).map fun i => i * subsample_stride nsamples0 nsamples

/-- NumPy fancy indexing `xs[index]` as used at lines 146-147. -/
def subsample {α : Type _} [Inhabited α] (xs : List α) (idx : List ℕ) : List α :=
  idx.map fun i => xs.getD i default

/-- Lines 139-147 of `plot_power_spectrum`: the subsampled ensemble
`(sigmas[index], ar_coefs[index])`.  The preceding `try` block merely
evaluates the boolean `nsamples <= sigmas.shape[0]` and discards it; it
can never raise, so no error path exists here. -/
def subsampled_draws (sigmas : List ℝ) (ar_coefs : List (List ℝ)) (nsamples : ℕ) :
    List ℝ × List (List ℝ) :=
  (subsample sigmas (subsample_index sigmas.length nsamples),
    subsample ar_coefs (subsample_index sigmas.length nsamples))

/-- Claim C10: when `plot_power_spectrum` is called with `nsamples`
strictly greater than the number of stored posterior draws, no error is
raised: the integer stride evaluates to zero, the subsample index array is
all zeros, the subsampled ensemble is the first posterior draw repeated
`nsamples` times, and the credible band is therefore the band of that
repeated-first-draw ensemble. -/
theorem subsample_overdraw (sigmas : List ℝ) (ar_coefs : List (List ℝ)) (nsamples : ℕ)
    (_h0 : 1 ≤ sigmas.length) (hn : sigmas.length < nsamples) :
    subsample_stride sigmas.length nsamples = 0 ∧
    subsample_index sigmas.length nsamples = List.replicate nsamples 0 ∧
    subsampled_draws sigmas ar_coefs nsamples =
      (List.replicate nsamples (sigmas.getD 0 0),
        List.replicate nsamples (ar_coefs.getD 0 [])) ∧
    (∀ (p : ℕ) (freqs : List ℝ) (percentile : ℝ),
      credible_band p freqs (subsampled_draws sigmas ar_coefs nsamples).1
          (subsampled_draws sigmas ar_coefs nsamples).2 percentile =
        credible_band p freqs (List.replicate nsamples (sigmas.getD 0 0))
          (List.replicate nsamples (ar_coefs.getD 0 [])) percentile) := by
  have hstride : subsample_stride sigmas.length nsamples = 0 := Nat.div_eq_of_lt hn
  have hidx : subsample_index sigmas.length nsamples = List.replicate nsamples 0 := by
    unfold subsample_index
    rw [hstride]
    simp only [Nat.mul_zero]
    rw [List.map_const', List.length_range]
  have hdraws : subsampled_draws sigmas ar_coefs nsamples =
      (List.replicate nsamples (sigmas.getD 0 0),
        List.replicate nsamples (ar_coefs.getD 0 [])) := by
    unfold subsampled_draws subsample
    rw [hidx, List.map_replicate, List.map_replicate]
    rfl
  exact ⟨hstride, hidx, hdraws, fun p freqs percentile => by rw [hdraws]⟩

/-- Claim C10 witness: two stored draws, `nsamples = 3`. -/
theorem subsample_overdraw_witness :
    subsample_stride ([(5 : ℝ), 7]).length 3 = 0 ∧
    subsample_index ([(5 : ℝ), 7]).length 3 = List.replicate 3 0 ∧
    subsampled_draws [(5 : ℝ), 7] [[1], [2]] 3 =
      (List.replicate 3 (([(5 : ℝ), 7]).getD 0 0),
        List.replicate 3 (([[(1 : ℝ)], [2]]).getD 0 [])) ∧
    (∀ (p : ℕ) (freqs : List ℝ) (percentile : ℝ),
      credible_band p freqs (subsampled_draws [(5 : ℝ), 7] [[1], [2]] 3).1
          (subsampled_draws [(5 : ℝ), 7] [[1], [2]] 3).2 percentile =
        credible_band p freqs (List.replicate 3 (([(5 : ℝ), 7]).getD 0 0))
          (List.replicate 3 (([[(1 : ℝ)], [2]]).getD 0 [])) percentile) :=
  subsample_overdraw [(5 : ℝ), 7] [[1], [2]] 3 (by norm_num) (by norm_num)

/-- Lines 359-376: `get_ar_roots(qpo_width, qpo_centroid)`.  With
`p = qpo_centroid.size + qpo_width.size`, the loop writes
`ar_roots[2*i] = width[i] + 1j*centroid[i]` and its conjugate at
`ar_roots[2*i+1]` for `i < p/2`, an odd `p` writes the single real root
`width[-1]` at the last slot, and the whole array is returned multiplied
by `-2*pi`.  `none` models the `IndexError` raised when a loop access
`width[i]`/`centroid[i]` (or `width[-1]` on an empty array) is out of
bounds. -/
def get_ar_roots (qpo_width qpo_centroid : List ℝ) : Option (List ℂ) :=
  if (qpo_centroid.length + qpo_width.length) / 2 ≤ qpo_width.length ∧
      (qpo_centroid.length + qpo_width.length) / 2 ≤ qpo_centroid.length ∧
      ((qpo_centroid.length + qpo_width.length) % 2 = 1 → qpo_width ≠ []) then
    some
      (((List.range (qpo_centroid.length + qpo_width.length)).map fun idx =>
          if (qpo_centroid.length + qpo_width.length) % 2 = 1 ∧
              idx = qpo_centroid.length + qpo_width.length - 1 then
            ((qpo_width.getD (qpo_width.length - 1) 0 : ℝ) : ℂ)
          else if idx % 2 = 0 then
            ((qpo_width.getD (idx / 2) 0 : ℝ) : ℂ) +
              Complex.I * ((qpo_centroid.getD (idx / 2) 0 : ℝ) : ℂ)
          else
            ((qpo_width.getD (idx / 2) 0 : ℝ) : ℂ) -
              Complex.I * ((qpo_centroid.getD (idx / 2) 0 : ℝ) : ℂ)).map
        fun z => ((-2 * Real.pi : ℝ) : ℂ) * z)
  else
    none

/-- Claim C6: for positive widths and non-negative centroids in the QPO
shape (one centroid per width pair, plus possibly one extra width),
`get_ar_roots` succeeds and returns `p = #widths + #centroids` roots in
pair-then-conjugate order: `roots[2i] = -2*pi*(width_i + 1j*centroid_i)`,
`roots[2i+1] = -2*pi*(width_i - 1j*centroid_i)`, and for odd `p` the final
root is the single real value `-2*pi*width_last`. -/
theorem get_ar_roots_pairs (qpo_width qpo_centroid : List ℝ)
    (_hpos : ∀ w ∈ qpo_width, 0 < w) (_hcen : ∀ c ∈ qpo_centroid, 0 ≤ c)
    (hlen1 : qpo_centroid.length ≤ qpo_width.length)
    (hlen2 : qpo_width.length ≤ qpo_centroid.length + 1) :
    ∃ roots : List ℂ,
      get_ar_roots qpo_width qpo_centroid = some roots ∧
      roots.length = qpo_centroid.length + qpo_width.length ∧
      (∀ i : ℕ, 2 * i + 1 < roots.length →
        roots.getD (2 * i) 0 =
          ((-2 * Real.pi : ℝ) : ℂ) *
            ((qpo_width.getD i 0 : ℝ) + Complex.I * (qpo_centroid.getD i 0 : ℝ)) ∧
        roots.getD (2 * i + 1) 0 =
          ((-2 * Real.pi : ℝ) : ℂ) *
            ((qpo_width.getD i 0 : ℝ) - Complex.I * (qpo_centroid.getD i 0 : ℝ))) ∧
      ((qpo_centroid.length + qpo_width.length) % 2 = 1 →
        roots.getD (roots.length - 1) 0 =
          ((-2 * Real.pi : ℝ) : ℂ) * (qpo_width.getD (qpo_width.length - 1) 0 : ℝ)) := by
  set c := qpo_centroid.length with hc
  set w := qpo_width.length with hw
  have hguard : (c + w) / 2 ≤ w ∧ (c + w) / 2 ≤ c ∧ ((c + w) % 2 = 1 → qpo_width ≠ []) := by
    refine ⟨by omega, by omega, fun hodd => ?_⟩
    have : w ≠ 0 := by omega
    simp only [hw] at this
    exact fun hnil => this (by simp [hnil])
  refine ⟨_, by rw [get_ar_roots, if_pos hguard], ?_, ?_, ?_⟩
  · simp
  · intro i hi
    simp only [List.length_map, List.length_range] at hi
    have hgd : ∀ (k : ℕ), k < c + w →
        (((List.range (c + w)).map fun idx =>
            if (c + w) % 2 = 1 ∧ idx = c + w - 1 then
              ((qpo_width.getD (w - 1) 0 : ℝ) : ℂ)
            else if idx % 2 = 0 then
              ((qpo_width.getD (idx / 2) 0 : ℝ) : ℂ) +
                Complex.I * ((qpo_centroid.getD (idx / 2) 0 : ℝ) : ℂ)
            else
              ((qpo_width.getD (idx / 2) 0 : ℝ) : ℂ) -
                Complex.I * ((qpo_centroid.getD (idx / 2) 0 : ℝ) : ℂ)).map
          fun z => ((-2 * Real.pi : ℝ) : ℂ) * z).getD k 0 =
          ((-2 * Real.pi : ℝ) : ℂ) *
            (if (c + w) % 2 = 1 ∧ k = c + w - 1 then
              ((qpo_width.getD (w - 1) 0 : ℝ) : ℂ)
            else if k % 2 = 0 then
              ((qpo_width.getD (k / 2) 0 : ℝ) : ℂ) +
                Complex.I * ((qpo_centroid.getD (k / 2) 0 : ℝ) : ℂ)
            else
              ((qpo_width.getD (k / 2) 0 : ℝ) : ℂ) -
                Complex.I * ((qpo_centroid.getD (k / 2) 0 : ℝ) : ℂ)) := by
      intro k hk
      rw [List.getD_eq_getElem?_getD]
      rw [List.getElem?_map, List.getElem?_map, List.getElem?_range hk]
      rfl
    constructor
    · rw [hgd (2 * i) (by omega)]
      rw [if_neg (by omega), if_pos (by omega)]
      rw [show 2 * i / 2 = i from by omega]
    · rw [hgd (2 * i + 1) (by omega)]
      have hne : ¬((c + w) % 2 = 1 ∧ 2 * i + 1 = c + w - 1) := by omega
      rw [if_neg hne, if_neg (by omega)]
      rw [show (2 * i + 1) / 2 = i from by omega]
  · intro hodd
    simp only [List.length_map, List.length_range]
    have hlt : c + w - 1 < c + w := by omega
    rw [List.getD_eq_getElem?_getD, List.getElem?_map, List.getElem?_map,
      List.getElem?_range hlt]
    simp [hodd]

/-- Claim C6 witness: widths `[1, 2]`, centroid `[3]`, hence `p = 3`. -/
theorem get_ar_roots_pairs_witness :
    ∃ roots : List ℂ,
      get_ar_roots [1, 2] [3] = some roots ∧
      roots.length = ([(3 : ℝ)]).length + ([(1 : ℝ), 2]).length ∧
      (∀ i : ℕ, 2 * i + 1 < roots.length →
        roots.getD (2 * i) 0 =
          ((-2 * Real.pi : ℝ) : ℂ) *
            ((([(1 : ℝ), 2]).getD i 0 : ℝ) + Complex.I * (([(3 : ℝ)]).getD i 0 : ℝ)) ∧
        roots.getD (2 * i + 1) 0 =
          ((-2 * Real.pi : ℝ) : ℂ) *
            ((([(1 : ℝ), 2]).getD i 0 : ℝ) - Complex.I * (([(3 : ℝ)]).getD i 0 : ℝ))) ∧
      ((([(3 : ℝ)]).length + ([(1 : ℝ), 2]).length) % 2 = 1 →
        roots.getD (roots.length - 1) 0 =
          ((-2 * Real.pi : ℝ) : ℂ) * (([(1 : ℝ), 2]).getD (([(1 : ℝ), 2]).length - 1) 0 : ℝ)) :=
  get_ar_roots_pairs [1, 2] [3]
    (by intro x hx; simp only [List.mem_cons, List.not_mem_nil, or_false] at hx
        rcases hx with h | h <;> simp [h])
    (by intro x hx; simp only [List.mem_cons, List.not_mem_nil, or_false] at hx
        simp [hx])
    (by simp) (by simp)

/-- The running state of the Kalman recursion: the rotated state vector,
the one-step prediction covariance, and the most recent predictive mean,
predictive variance and innovation. -/
structure KState (p : ℕ) where
  st : Fin p → ℂ
  P : Matrix (Fin p) (Fin p) ℂ
  mean : ℝ
  kvar : ℝ
  innov : ℝ

/-- One iteration of the Kalman loop, lines 337-354 of `kalman_filter`.
These are, word for word, the recursion equations the specification states
for index `i ≥ 1`: gain `k = rowsum(P) / var[i-1]`; `state += e*k`;
`P -= var[i-1]*k*k^H`; elementwise transition `T = exp(R*dt)` applied to
the state; `P = (T*T^H) ⊙ (P - S) + S`; `mean = Re(sum(state))`;
`var = Re(sum(P)) + v`; new innovation `e = y - mean`. -/
def kalman_step (p : ℕ) (r : Fin p → ℂ) (S : Matrix (Fin p) (Fin p) ℂ)
    (dt yi vi : ℝ) (s : KState p) : KState p :=
  let KalmanGain : Fin p → ℂ := fun j => (∑ k, s.P j k) / (s.kvar : ℂ)
  let st1 : Fin p → ℂ := fun j => s.st j + (s.innov : ℂ) * KalmanGain j
  let P1 : Matrix (Fin p) (Fin p) ℂ := fun j k =>
    s.P j k - (s.kvar : ℂ) * (KalmanGain j * (starRingEnd ℂ) (KalmanGain k))
  let T : Fin p → ℂ := fun j => Complex.exp (r j * (dt : ℂ))
  let st2 : Fin p → ℂ := fun j => st1 j * T j
  let P2 : Matrix (Fin p) (Fin p) ℂ := fun j k =>
    T j * (starRingEnd ℂ) (T k) * (P1 j k - S j k) + S j k
  ⟨st2, P2, (∑ j, st2 j).re, (∑ j, ∑ k, P2 j k).re + vi,
    yi - (∑ j, st2 j).re⟩

/-- The loop at lines 337-354 of `kalman_filter`, consuming the remaining
time, observation and observation-variance entries.  `none` models the
`IndexError` raised when `y[i]` or `yvar[i]` is accessed past the end of a
too-short array (the Python loop runs over `time.size`). -/
def kalman_loop (p : ℕ) (r : Fin p → ℂ) (S : Matrix (Fin p) (Fin p) ℂ) :
    List ℝ → List ℝ → List ℝ → ℝ → KState p → Option (List (ℝ × ℝ))
  | [], _, _, _, _ => some []
  | _ :: _, [], _, _, _ => none
  | _ :: _, _ :: _, [], _, _ => none
  | t :: ts, yi :: ys, vi :: vs, tprev, s =>
    (kalman_loop p r S ts ys vs t (kalman_step p r S (t - tprev) yi vi s)).map fun rest =>
      ((kalman_step p r S (t - tprev) yi vi s).mean,
        (kalman_step p r S (t - tprev) yi vi s).kvar) :: rest

/-- Lines 281-356: `kalman_filter(time, y, yvar, sigsqr, ar_roots)`.
The function performs no input validation; `none` models an uncaught
error, in the order the source hits them: the unconditional
`EigenMat[1, :] = ar_roots` (line 298) raises `IndexError` whenever
`p ≤ 1` (for `p = 0` the array is `0 × 0`, for `p = 1` it is `1 × 1`);
`solve(EigenMat, Rvector)` (line 307) raises scipy's `LinAlgError` when
the eigenmatrix is exactly singular (determinant zero); and
`kalman_mean[0] = 0.0` / `yvar[0]` / `y[0]` (lines 324-328) and the loop
accesses `y[i]` / `yvar[i]` raise `IndexError` when `time` is empty or
`y` / `yvar` is shorter than `time`.  On success it returns the pair of
arrays `(kalman_mean, kalman_var)`.  The post-setup part (lines 313-356:
stationary covariance, initialisation at the first observation, and the
loop) is `kalman_filter_go`; the setup guards are in `kalman_filter`
itself. -/
def kalman_filter_go (p : ℕ) (r : Fin p → ℂ) (S : Matrix (Fin p) (Fin p) ℂ) :
    List ℝ → List ℝ → List ℝ → Option (List ℝ × List ℝ)
  | t0 :: ts, y0 :: ys, v0 :: vs =>
    (kalman_loop p r S ts ys vs t0
        ⟨fun _ => 0, S, 0, (∑ j, ∑ k, S j k).re + v0, y0⟩).map
      fun rest =>
        ((((0 : ℝ), (∑ j, ∑ k, S j k).re + v0) :: rest).map Prod.fst,
          (((0 : ℝ), (∑ j, ∑ k, S j k).re + v0) :: rest).map Prod.snd)
  | _, _, _ => none

def kalman_filter (time y yvar : List ℝ) (sigsqr : ℝ) (ar_roots : List ℂ) :
    Option (List ℝ × List ℝ) :=
  if ar_roots.length < 2 then none
  else if (EigenMat ar_roots.length fun i => ar_roots.get i).det = 0 then none
  else
    kalman_filter_go ar_roots.length (fun i => ar_roots.get i)
      (StateVar ar_roots.length sigsqr fun i => ar_roots.get i) time y yvar

/-- The specification's Kalman recursion (section 4.3 of the spec, and the
recursion stated by the claim), indexed by the observation number `i`:
`state_0 = 0`, `P_0 = S`, `mean_0 = 0`, `var_0 = Re(sum(S)) + v 0`,
`e_0 = y 0`, and each subsequent state is one `kalman_step` over
`dt = t(i+1) - t(i)` with observation `y(i+1)` and noise variance
`v(i+1)`. -/
def kalman_spec (p : ℕ) (r : Fin p → ℂ) (S : Matrix (Fin p) (Fin p) ℂ)
    (t y v : ℕ → ℝ) : ℕ → KState p
  | 0 => ⟨fun _ => 0, S, 0, (∑ j, ∑ k, S j k).re + v 0, y 0⟩
  | i + 1 => kalman_step p r S (t (i + 1) - t i) (y (i + 1)) (v (i + 1))
      (kalman_spec p r S t y v i)

lemma drop_cons_getD (l : List ℝ) (i : ℕ) (h : i < l.length) :
    l.drop i = l.getD i 0 :: l.drop (i + 1) := by
  rw [List.drop_eq_getElem_cons h, List.getD_eq_getElem?_getD, List.getElem?_eq_getElem h]
  rfl

lemma kalman_loop_eq_spec (p : ℕ) (r : Fin p → ℂ) (S : Matrix (Fin p) (Fin p) ℂ)
    (time y yvar : List ℝ) (n : ℕ) (hn : time.length = n) (hy : y.length = n)
    (hv : yvar.length = n) :
    ∀ (k i : ℕ), i + 1 + k = n →
      kalman_loop p r S (time.drop (i + 1)) (y.drop (i + 1)) (yvar.drop (i + 1))
          (time.getD i 0)
          (kalman_spec p r S (fun j => time.getD j 0) (fun j => y.getD j 0)
            (fun j => yvar.getD j 0) i) =
        some ((List.range k).map fun j =>
          ((kalman_spec p r S (fun m => time.getD m 0) (fun m => y.getD m 0)
              (fun m => yvar.getD m 0) (i + 1 + j)).mean,
            (kalman_spec p r S (fun m => time.getD m 0) (fun m => y.getD m 0)
              (fun m => yvar.getD m 0) (i + 1 + j)).kvar)) := by
  intro k
  induction k with
  | zero =>
    intro i hi
    rw [List.drop_eq_nil_of_le (by omega), List.drop_eq_nil_of_le (by omega),
      List.drop_eq_nil_of_le (by omega)]
    simp [kalman_loop]
  | succ k ih =>
    intro i hi
    rw [drop_cons_getD time (i + 1) (by omega), drop_cons_getD y (i + 1) (by omega),
      drop_cons_getD yvar (i + 1) (by omega)]
    rw [kalman_loop]
    have hstep : kalman_step p r S (time.getD (i + 1) 0 - time.getD i 0) (y.getD (i + 1) 0)
        (yvar.getD (i + 1) 0)
        (kalman_spec p r S (fun j => time.getD j 0) (fun j => y.getD j 0)
          (fun j => yvar.getD j 0) i) =
        kalman_spec p r S (fun j => time.getD j 0) (fun j => y.getD j 0)
          (fun j => yvar.getD j 0) (i + 1) := rfl
    rw [hstep, ih (i + 1) (by omega), Option.map_some']
    congr 1
    rw [List.range_succ_eq_map, List.map_cons, List.map_map]
    congr 1
    refine List.map_congr_left fun j _ => ?_
    have harg : i + 1 + 1 + j = i + 1 + (j + 1) := by omega
    simp only [Function.comp_apply, harg]

/-- Claim C1 amended: for every strictly increasing time grid of length
`n ≥ 1`, observations `y`, noise variances `v` (each of length `n`),
driving-noise variance `sigsqr` and a root list of at least two
pairwise-distinct roots (so that the eigenvector solve succeeds),
`kalman_filter` returns two arrays of length `n` that are exactly the
predictive means and variances of the specification recursion
`kalman_spec`: `mean[0] = 0`, `var[0] = Re(sum(S)) + v[0]`, and each
later entry arises from the stated gain/update/transition equations with
innovation `e_i = y_i - mean_i`.  (The claim's "non-empty root set" is
cut down to "at least two roots" because a single-root call crashes at
line 298, see the counterexample.) -/
theorem kalman_filter_matches_spec (time y yvar : List ℝ) (sigsqr : ℝ) (ar_roots : List ℂ)
    (n : ℕ) (hn : time.length = n) (hy : y.length = n) (hv : yvar.length = n)
    (hn1 : 1 ≤ n) (hp : 2 ≤ ar_roots.length) (hdist : ar_roots.Pairwise (· ≠ ·))
    (_hmono : time.Sorted (· < ·)) :
    kalman_filter time y yvar sigsqr ar_roots =
      some
        ((List.range n).map fun i =>
          (kalman_spec ar_roots.length (fun j => ar_roots.get j)
            (StateVar ar_roots.length sigsqr fun j => ar_roots.get j)
            (fun m => time.getD m 0) (fun m => y.getD m 0) (fun m => yvar.getD m 0) i).mean,
          (List.range n).map fun i =>
          (kalman_spec ar_roots.length (fun j => ar_roots.get j)
            (StateVar ar_roots.length sigsqr fun j => ar_roots.get j)
            (fun m => time.getD m 0) (fun m => y.getD m 0) (fun m => yvar.getD m 0) i).kvar) := by
  obtain ⟨t0, ts, rfl⟩ : ∃ a l, time = a :: l := by
    cases time with
    | nil => exact absurd hn (by simp; omega)
    | cons a l => exact ⟨a, l, rfl⟩
  obtain ⟨y0, ys, rfl⟩ : ∃ a l, y = a :: l := by
    cases y with
    | nil => exact absurd hy (by simp; omega)
    | cons a l => exact ⟨a, l, rfl⟩
  obtain ⟨v0, vs, rfl⟩ : ∃ a l, yvar = a :: l := by
    cases yvar with
    | nil => exact absurd hv (by simp; omega)
    | cons a l => exact ⟨a, l, rfl⟩
  obtain ⟨m, rfl⟩ : ∃ m, n = m + 1 := ⟨n - 1, by omega⟩
  rw [kalman_filter, if_neg (by omega),
    if_neg (eigenMat_det_ne_zero_of_pairwise ar_roots hdist), kalman_filter_go]
  have hinit :
      (⟨fun _ => 0, StateVar ar_roots.length sigsqr fun i => ar_roots.get i, 0,
        (∑ j, ∑ k, StateVar ar_roots.length sigsqr (fun i => ar_roots.get i) j k).re + v0,
        y0⟩ : KState ar_roots.length) =
      kalman_spec ar_roots.length (fun j => ar_roots.get j)
        (StateVar ar_roots.length sigsqr fun j => ar_roots.get j)
        (fun m => (t0 :: ts).getD m 0) (fun m => (y0 :: ys).getD m 0)
        (fun m => (v0 :: vs).getD m 0) 0 := rfl
  rw [hinit]
  have hloop := kalman_loop_eq_spec ar_roots.length (fun j => ar_roots.get j)
    (StateVar ar_roots.length sigsqr fun j => ar_roots.get j)
    (t0 :: ts) (y0 :: ys) (v0 :: vs) (m + 1) hn hy hv m 0 (by omega)
  simp only [List.drop_one, List.drop_zero] at hloop
  rw [show (t0 :: ts).drop 1 = ts from rfl, show (y0 :: ys).drop 1 = ys from rfl,
    show (v0 :: vs).drop 1 = vs from rfl, show (t0 :: ts).getD 0 0 = t0 from rfl] at hloop
  rw [hloop, Option.map_some']
  congr 1
  rw [Prod.mk.injEq]
  constructor
  · rw [List.map_cons, List.map_map, List.range_succ_eq_map, List.map_cons, List.map_map]
    congr 1
    refine List.map_congr_left fun j _ => ?_
    have harg : 0 + 1 + j = j + 1 := by omega
    simp only [Function.comp_apply, harg]
  · rw [List.map_cons, List.map_map, List.range_succ_eq_map, List.map_cons, List.map_map]
    congr 1
    refine List.map_congr_left fun j _ => ?_
    have harg : 0 + 1 + j = j + 1 := by omega
    simp only [Function.comp_apply, harg]

/-- Claim C1 counterexample: the single root `-1` with a strictly
increasing grid `[0, 1]` and matching arrays is a non-empty root set on
which the claim promises two output arrays, but the source raises
`IndexError` at line 298 (`EigenMat[1, :] = ar_roots` on a `1 × 1`
array), so `kalman_filter` produces no arrays at all. -/
theorem kalman_filter_single_root_cex :
    kalman_filter [0, 1] [1, 2] [1, 1] 1 [(-1 : ℂ)] = none ∧
      [(-1 : ℂ)] ≠ [] ∧ ([(0 : ℝ), 1]).Sorted (· < ·) := by
  refine ⟨?_, by simp, by norm_num [List.sorted_cons]⟩
  rw [kalman_filter, if_pos (by norm_num)]

/-- Claim C1 witness: the concrete call with `time = [0, 1]`,
`y = [1, 2]`, `yvar = [1, 1]`, `sigsqr = 1` and the distinct roots
`-1, -2`. -/
theorem kalman_filter_matches_spec_witness :
    kalman_filter [0, 1] [1, 2] [1, 1] 1 [(-1 : ℂ), -2] =
      some
        ((List.range 2).map fun i =>
          (kalman_spec ([(-1 : ℂ), -2]).length (fun j => ([(-1 : ℂ), -2]).get j)
            (StateVar ([(-1 : ℂ), -2]).length 1 fun j => ([(-1 : ℂ), -2]).get j)
            (fun m => ([(0 : ℝ), 1]).getD m 0) (fun m => ([(1 : ℝ), 2]).getD m 0)
            (fun m => ([(1 : ℝ), 1]).getD m 0) i).mean,
          (List.range 2).map fun i =>
          (kalman_spec ([(-1 : ℂ), -2]).length (fun j => ([(-1 : ℂ), -2]).get j)
            (StateVar ([(-1 : ℂ), -2]).length 1 fun j => ([(-1 : ℂ), -2]).get j)
            (fun m => ([(0 : ℝ), 1]).getD m 0) (fun m => ([(1 : ℝ), 2]).getD m 0)
            (fun m => ([(1 : ℝ), 1]).getD m 0) i).kvar) :=
  kalman_filter_matches_spec [0, 1] [1, 2] [1, 1] 1 [(-1 : ℂ), -2] 2 rfl rfl rfl
    (by norm_num) (by norm_num) (by norm_num [List.pairwise_cons])
    (by norm_num [List.sorted_cons])

lemma kalman_loop_isSome (p : ℕ) (r : Fin p → ℂ) (S : Matrix (Fin p) (Fin p) ℂ) :
    ∀ (ts ys vs : List ℝ) (tprev : ℝ) (s : KState p),
      (kalman_loop p r S ts ys vs tprev s).isSome = true ↔
        ts.length ≤ ys.length ∧ ts.length ≤ vs.length := by
  intro ts
  induction ts with
  | nil => intro ys vs tprev s; simp [kalman_loop]
  | cons t ts ih =>
    intro ys vs tprev s
    cases ys with
    | nil => simp [kalman_loop]
    | cons yi ys =>
      cases vs with
      | nil => simp [kalman_loop]
      | cons vi vs =>
        rw [kalman_loop]
        simp only [Option.isSome_map', List.length_cons, Nat.add_le_add_iff_right]
        exact ih ys vs t (kalman_step p r S (t - tprev) yi vi s)

lemma kalman_filter_go_isSome (p : ℕ) (r : Fin p → ℂ) (S : Matrix (Fin p) (Fin p) ℂ)
    (time y yvar : List ℝ) :
    (kalman_filter_go p r S time y yvar).isSome = true ↔
      time ≠ [] ∧ time.length ≤ y.length ∧ time.length ≤ yvar.length := by
  cases time with
  | nil => cases y <;> cases yvar <;> simp [kalman_filter_go]
  | cons t0 ts =>
    cases y with
    | nil => cases yvar <;> simp [kalman_filter_go]
    | cons y0 ys =>
      cases yvar with
      | nil => simp [kalman_filter_go]
      | cons v0 vs =>
        simp [kalman_filter_go, kalman_loop_isSome, Nat.add_le_add_iff_right]

lemma kalman_filter_isSome_aux (time y yvar : List ℝ) (sigsqr : ℝ) (ar_roots : List ℂ) :
    (kalman_filter time y yvar sigsqr ar_roots).isSome = true ↔
      2 ≤ ar_roots.length ∧
        (EigenMat ar_roots.length fun i => ar_roots.get i).det ≠ 0 ∧
        time ≠ [] ∧ time.length ≤ y.length ∧ time.length ≤ yvar.length := by
  by_cases hp : ar_roots.length < 2
  · rw [kalman_filter, if_pos hp]
    simp only [Option.isSome_none, Bool.false_eq_true, false_iff]
    rintro ⟨h2, -⟩
    omega
  · have h2 : 2 ≤ ar_roots.length := by omega
    by_cases hdet : (EigenMat ar_roots.length fun i => ar_roots.get i).det = 0
    · rw [kalman_filter, if_neg hp, if_pos hdet]
      simp only [Option.isSome_none, Bool.false_eq_true, false_iff]
      rintro ⟨-, hdet', -⟩
      exact hdet' hdet
    · rw [kalman_filter, if_neg hp, if_neg hdet, kalman_filter_go_isSome]
      simp only [h2, true_and]
      exact (and_iff_right hdet).symm

/-- Claim C2 counterexample: a call whose time grid `[1, 0]` is
non-increasing and whose observation array `[1, 2, 3]` is longer than the
grid (a length mismatch) returns normally — `kalman_filter` performs no
precondition check and raises nothing.  (The root list `[-1, -2]` has two
distinct roots, so none of the incidental setup errors fire either.) -/
theorem kalman_filter_computes_through_cex :
    (kalman_filter [1, 0] [1, 2, 3] [1, 1, 1] 1 [(-1 : ℂ), -2]).isSome = true ∧
      ¬ ([(1 : ℝ), 0]).Sorted (· < ·) ∧
      ([(1 : ℝ), 2, 3]).length ≠ ([(1 : ℝ), 0]).length := by
  refine ⟨?_, ?_, by norm_num⟩
  · rw [kalman_filter_isSome_aux]
    exact ⟨by norm_num,
      eigenMat_det_ne_zero_of_pairwise [(-1 : ℂ), -2] (by norm_num [List.pairwise_cons]),
      by simp, by norm_num, by norm_num⟩
  · intro hsorted
    have := List.rel_of_sorted_cons hsorted 0 (by simp)
    norm_num at this

/-- Claim C2 amended: `kalman_filter` performs no precondition validation
at all.  Calls with observation or observation-variance arrays longer
than the time grid, or with a non-increasing grid, compute through and
return normally.  It fails only through uncaught errors during the
computation: an `IndexError` at the unconditional eigenmatrix row
assignment (line 298) when the root set has fewer than two roots, a
`LinAlgError` from the linear solve (line 307) when the eigenmatrix is
exactly singular, and an `IndexError` when the time grid is empty or an
array is shorter than the grid — never an upfront precondition check. -/
theorem kalman_filter_isSome_iff (time y yvar : List ℝ) (sigsqr : ℝ) (ar_roots : List ℂ) :
    (kalman_filter time y yvar sigsqr ar_roots).isSome = true ↔
      2 ≤ ar_roots.length ∧
        (EigenMat ar_roots.length fun i => ar_roots.get i).det ≠ 0 ∧
        time ≠ [] ∧ time.length ≤ y.length ∧ time.length ≤ yvar.length :=
  kalman_filter_isSome_aux time y yvar sigsqr ar_roots

/-- Lines 481-500 of `carp_process`: the simulation loop.  For each
remaining time point the state conditional mean is
`state * exp(ar_roots * dt)`; the conditional covariance `StateCvar`
(lines 486-488) parameterizes the multivariate-normal draw, which the
embedding abstracts as the `noise` oracle value for the step; the new
state is the conditional mean plus the draw, and the output value is the
real part of the sum of the state components. -/
def carp_loop (p : ℕ) (r : Fin p → ℂ) (S : Matrix (Fin p) (Fin p) ℂ)
    (noise : ℕ → Fin p → ℂ) :
    List ℝ → ℝ → (Fin p → ℂ) → ℕ → List ℝ
  | [], _, _, _ => []
  | t :: ts, tprev, state_vector, i =>
    let state_cmean : Fin p → ℂ := fun j =>
      state_vector j * Complex.exp (r j * ((t - tprev : ℝ) : ℂ))
    let _StateCvar : Matrix (Fin p) (Fin p) ℂ := fun j k =>
      S j k * (1 - Complex.exp ((r j + (starRingEnd ℂ) (r k)) * ((t - tprev : ℝ) : ℂ)))
    let state' : Fin p → ℂ := fun j => state_cmean j + noise i j
    (∑ j, state' j).re :: carp_loop p r S noise ts t state' (i + 1)

/-- Lines 413-502: `carp_process(time, sigsqr, ar_roots)`.

`time.sort()` (line 423) sorts the caller's array **in place**; the second
component of the result is the post-call contents of that array.  The
stationarity check (lines 425-428) and the uniqueness check (lines
430-439) are `try: np.any(...) except ValueError: "..."` blocks: `np.any`
returns a boolean and never raises, and the `except` body is a bare
string, so both blocks compute a boolean, discard it, and can never
raise — they are kept here as the discarded `_stationary_check` and
`_unique_check` values.  `none` models the uncaught errors, in source
order: the unconditional `EigenMat[1, :] = ar_roots` (line 445) raises
`IndexError` whenever `p ≤ 1`; `solve(EigenMat, Rvector)` (line 454)
raises scipy's `LinAlgError` when the eigenmatrix is exactly singular
(determinant zero); and `car_process[0] = ...` (line 476) raises
`IndexError` when the time array is empty.  The multivariate-normal
draws are abstracted by the `noise` oracle (`noise 0` is the initial
stationary-distribution draw). -/
def carp_process (time : List ℝ) (sigsqr : ℝ) (ar_roots : List ℂ)
    (noise : ℕ → Fin ar_roots.length → ℂ) : Option (List ℝ) × List ℝ :=
  let sorted := List.insertionSort (· ≤ ·) time
  let _stationary_check := ar_roots.any fun z => decide (z.re < 0)
  let _unique_check := ar_roots.any fun z1 => ar_roots.any fun z2 =>
    decide (Complex.abs (z1 - z2) / Complex.abs (z1 + z2) > 1e-8)
  let path : Option (List ℝ) :=
    if ar_roots.length < 2 then none
    else if (EigenMat ar_roots.length fun i => ar_roots.get i).det = 0 then none
    else
      match sorted with
      | [] => none
      | t0 :: ts =>
        some ((∑ j, noise 0 j).re ::
          carp_loop ar_roots.length (fun i => ar_roots.get i)
            (StateVar ar_roots.length sigsqr fun i => ar_roots.get i) noise ts t0 (noise 0) 1)
  (path, sorted)

lemma carp_path_isSome_iff (time : List ℝ) (sigsqr : ℝ) (ar_roots : List ℂ)
    (noise : ℕ → Fin ar_roots.length → ℂ) :
    ((carp_process time sigsqr ar_roots noise).1).isSome = true ↔
      2 ≤ ar_roots.length ∧
        (EigenMat ar_roots.length fun i => ar_roots.get i).det ≠ 0 ∧ time ≠ [] := by
  by_cases hp : ar_roots.length < 2
  · simp only [carp_process, if_pos hp, Option.isSome_none, Bool.false_eq_true, false_iff]
    rintro ⟨h2, -⟩
    omega
  · have h2 : 2 ≤ ar_roots.length := by omega
    by_cases hdet : (EigenMat ar_roots.length fun i => ar_roots.get i).det = 0
    · simp only [carp_process, if_neg hp, if_pos hdet, Option.isSome_none,
        Bool.false_eq_true, false_iff]
      rintro ⟨-, hdet', -⟩
      exact hdet' hdet
    · cases hsorted : List.insertionSort (· ≤ ·) time with
      | nil =>
        have htime : time = [] := by
          have hperm := List.perm_insertionSort (· ≤ ·) time
          rw [hsorted] at hperm
          exact hperm.nil_eq.symm
        simp only [carp_process, if_neg hp, if_neg hdet, hsorted, Option.isSome_none,
          Bool.false_eq_true, false_iff]
        rintro ⟨-, -, hcontra⟩
        exact hcontra htime
      | cons t0 ts =>
        have htime : time ≠ [] := by
          intro h
          subst h
          simp [List.insertionSort] at hsorted
        simp only [carp_process, if_neg hp, if_neg hdet, hsorted, Option.isSome_some,
          true_iff]
        exact ⟨h2, hdet, htime⟩

/-- Claim C3 (code bug witness): `carp_process` called with the two
distinct roots `1` and `2` — both with positive real part, hence a
non-stationary process — raises no precondition violation: the path is
produced (`isSome`).  The validation code computes
`np.any(ar_roots.real < 0)` inside a `try` block whose `except` body is a
bare string; nothing is ever raised or even branched on, so the
violation is silently ignored and the simulation proceeds.  (Two roots
are used so that the incidental `IndexError` of line 445, which fires
for any single-root call before the checks could matter, does not mask
the missing validation.) -/
theorem carp_process_ignores_nonstationary_roots :
    ((carp_process [(0 : ℝ), 1] 1 [(1 : ℂ), 2] fun _ _ => 0).1).isSome = true ∧
      ∀ z ∈ [(1 : ℂ), 2], 0 < z.re := by
  constructor
  · rw [carp_path_isSome_iff]
    refine ⟨by norm_num,
      eigenMat_det_ne_zero_of_pairwise [(1 : ℂ), 2] (by norm_num [List.pairwise_cons]),
      by simp⟩
  · intro z hz
    simp only [List.mem_cons, List.not_mem_nil, or_false] at hz
    rcases hz with h | h <;> simp [h]

/-- Claim C4 counterexample: calling `carp_process` on the unsorted time
array `[1, 0]` (with two distinct stationary roots, so the call completes
and returns a path) leaves the array holding `[0, 1]` after the call —
not the values in their original order.  (`time.sort()` at line 423 sorts
the caller's array in place.) -/
theorem carp_process_mutates_time_cex :
    ((carp_process [(1 : ℝ), 0] 1 [(-1 : ℂ), -2] fun _ _ => 0).1).isSome = true ∧
      (carp_process [(1 : ℝ), 0] 1 [(-1 : ℂ), -2] fun _ _ => 0).2 ≠ [1, 0] := by
  constructor
  · rw [carp_path_isSome_iff]
    exact ⟨by norm_num,
      eigenMat_det_ne_zero_of_pairwise [(-1 : ℂ), -2] (by norm_num [List.pairwise_cons]),
      by simp⟩
  · have hs : (carp_process [(1 : ℝ), 0] 1 [(-1 : ℂ), -2] fun _ _ => 0).2 = [0, 1] := by
      show List.insertionSort (· ≤ ·) [(1 : ℝ), 0] = [0, 1]
      norm_num [List.insertionSort, List.orderedInsert]
    rw [hs]
    simp only [ne_eq, List.cons.injEq, not_and]
    intro h
    norm_num at h

/-- Claim C4 amended: `carp_process` sorts the caller-supplied time array
in place: after the call the array holds exactly the same multiset of
values, rearranged into nondecreasing order (so it is unchanged only when
the input was already sorted). -/
theorem carp_process_sorts_time (time : List ℝ) (sigsqr : ℝ) (ar_roots : List ℂ)
    (noise : ℕ → Fin ar_roots.length → ℂ) :
    ((carp_process time sigsqr ar_roots noise).2).Sorted (· ≤ ·) ∧
      ((carp_process time sigsqr ar_roots noise).2).Perm time := by
  have h2 : (carp_process time sigsqr ar_roots noise).2 =
      List.insertionSort (· ≤ ·) time := rfl
  rw [h2]
  exact ⟨List.sorted_insertionSort _ time, List.perm_insertionSort _ time⟩

end

